import Mathlib

/-!
Verification development for the work-plan merger (`work-plan-merger/scripts/merge_plans.py`).

The Python program parses a master markdown document into heading sections, scores
each subplan document against the eligible sections, picks at most one section per
subplan, and rewrites the master with each matched subplan's content inserted.

This file gives a shallow embedding of that program over `List String` / `String`
(lines of text) and `ℚ` (Python floats are modelled as exact rationals), and proves
the stated properties about it.  Two external collaborators of the program are kept
abstract, exactly as the design document treats them:
 * `tokenize` stands for `jieba.lcut` (a third-party Chinese segmentation library);
 * `ratio` stands for `difflib.SequenceMatcher(None, a, b).ratio()` (Python standard
   library).  Both are passed as explicit function parameters; no proved statement
   depends on their concrete values.
Python's iteration order over a `set` of strings depends on the per-process hash
seed; it is modelled by an explicit enumeration-function parameter `enum`.
-/

/-- Characters matched by Python's `\s` (ASCII part; the rare non-ASCII Unicode
whitespace characters are not modelled). -/
def isPySpace (c : Char) : Bool :=
  c = ' ' || c = '\t' || c = '\n' || c = '\r' || c = '\x0b' || c = '\x0c'

/-- Python `str.strip()` on a list of characters: drop leading and trailing whitespace. -/
def stripChars (cs : List Char) : List Char :=
  ((cs.dropWhile isPySpace).reverse.dropWhile isPySpace).reverse

/-- Python `str.strip()`. -/
def pyStrip (s : String) : String :=
  String.mk (stripChars s.data)

/-- Python slicing `s[:n]` (by characters). -/
def pyTake (n : Nat) (s : String) : String :=
  String.mk (s.data.take n)

/-- Python `str.lower()` (ASCII part; CJK characters are unaffected by lowering). -/
def pyLower (s : String) : String :=
  String.mk (s.data.map Char.toLower)

/-- Python `str.split('\n')` on a character list: split at every newline, keeping
empty pieces (`splitCharList [] = [[]]`, like `''.split('\n') == ['']`). -/
def splitCharList : List Char → List (List Char)
  | [] => [[]]
  | c :: cs =>
    if c = '\n' then [] :: splitCharList cs
    else
      match splitCharList cs with
      | [] => [[c]]
      | l :: ls => (c :: l) :: ls

/-- Python `content.split('\n')`. -/
def splitLines (s : String) : List String :=
  (splitCharList s.data).map String.mk

/-- Python `sep.join(ls)`. -/
def joinWith (sep : String) (ls : List String) : String :=
  String.mk (List.intercalate sep.data (ls.map String.data))

/-- Python `'\n'.join(ls)`. -/
def joinLines (ls : List String) : String :=
  joinWith "\n" ls

/-- Python `str.startswith`. -/
def pyStartsWith (pre s : String) : Bool :=
  pre.data.isPrefixOf s.data

/-- Whether a raw text ends with a newline character (Python `s.endswith('\n')`). -/
def endsWithNewline (s : String) : Bool :=
  s.data.getLast? = some '\n'

/-- Greedy subsequence test: `isSubseq xs ys` decides whether `xs` is an
order-preserving (not necessarily contiguous) subsequence of `ys`. -/
def isSubseq : List String → List String → Bool
  | [], _ => true
  | _ :: _, [] => false
  | a :: as, b :: bs => if a = b then isSubseq as bs else isSubseq (a :: as) bs

/-!  ## Document structure parser

`heading_pattern = re.compile(r'^(#{1,6})\s+(.+)$', re.MULTILINE)`, applied with
`.match` to single lines (which contain no `'\n'`).
-/

/-- The regex match `^(#{1,6})\s+(.+)$` on one line.  Returns `(level, group 2)`.
The regex matches iff the line starts with a maximal run of 1–6 `#` characters,
followed by at least one whitespace character and at least two characters in total
(greedy `\s+` backtracks one character when the remainder is all whitespace, so
group 2 is the text after the maximal whitespace run, or the line's final
whitespace character when nothing else is left). -/
def headingMatch (line : String) : Option (Nat × String) :=
  let cs := line.data
  let hashes := cs.takeWhile (· = '#')
  let rest := cs.dropWhile (· = '#')
  if 1 ≤ hashes.length && hashes.length ≤ 6 &&
     (match rest.head? with | some c => isPySpace c | none => false) &&
     2 ≤ rest.length then
    let afterWs := rest.dropWhile isPySpace
    let grp2 := if afterWs.isEmpty then
        (match rest.getLast? with | some c => [c] | none => [])
      else afterWs
    some (hashes.length, String.mk grp2)
  else none

/-- The heading level of a line, if the heading regex matches it. -/
def headingLevel (line : String) : Option Nat :=
  (headingMatch line).map (·.1)

/-- The `break` condition of `_extract_section_content`: the line is a heading of
level at most `lvl`. -/
def isStopHeading (lvl : Nat) (l : String) : Bool :=
  match headingLevel l with
  | some n => n ≤ lvl
  | none => false

/-- The lines collected by `_extract_section_content`: all lines strictly after
`startLine` up to (excluding) the first subsequent heading of level ≤ `lvl`. -/
def sectionSpanLines (lines : List String) (startLine lvl : Nat) : List String :=
  (lines.drop (startLine + 1)).takeWhile (fun l => !(isStopHeading lvl l))

/-- `_extract_section_content`: join the span with `'\n'` and `strip()` the result. -/
def extractSectionContent (content : String) (startLine currentLevel : Nat) : String :=
  pyStrip (joinLines (sectionSpanLines (splitLines content) startLine currentLevel))

/-- A parsed heading section (the dict built by `_analyze_document_structure`;
the design document calls it `HeadingNode`).  `lineNumber` is 1-based (`i + 1`). -/
structure HeadingNode where
  level : Nat
  title : String
  lineNumber : Nat
  content : String
  keywords : List String
deriving DecidableEq, Repr

/-!  ## Keyword extractor (`_extract_keywords`) -/

/-- The stopword set of `_extract_keywords`. -/
def stopWords : List String :=
  ["的", "和", "在", "是", "为", "了", "与", "中", "有", "及", "等", "或", "将",
   "会", "对", "进行", "工作", "规划", "计划"]

/-- The frequency dict `word_freq` built in first-seen (insertion) order,
matching Python dict semantics. -/
def buildFreq (ws : List String) : List (String × Nat) :=
  ws.foldl (fun acc w =>
    if acc.any (fun p => p.1 = w) then
      acc.map (fun p => if p.1 = w then (p.1, p.2 + 1) else p)
    else acc ++ [(w, 1)]) []

/-- Insert one entry behind all entries of count ≥ its own (descending stable
insertion step). -/
def insertByCountDesc (m : String × Nat) : List (String × Nat) → List (String × Nat)
  | [] => [m]
  | x :: xs => if m.2 ≤ x.2 then x :: insertByCountDesc m xs else m :: x :: xs

/-- Stable sort by count, descending.  Python's
`sorted(word_freq.items(), key=lambda x: x[1], reverse=True)` is a stable
descending sort; stable sorts with equal keys-and-order agree, so this insertion
sort computes the same list. -/
def sortByCountDesc (l : List (String × Nat)) : List (String × Nat) :=
  l.foldl (fun acc m => insertByCountDesc m acc) []

/-- `_extract_keywords`, with `jieba.lcut` abstracted as `tokenize`: lower-case,
tokenize, drop tokens of length ≤ 1, stopwords and whitespace-only tokens, then
return the 10 most frequent tokens (ties by first occurrence). -/
def extractKeywords (tokenize : String → List String) (text : String) : List String :=
  let words := tokenize (pyLower text)
  let keywords := words.filter (fun w =>
    1 < w.data.length && !(stopWords.contains w) && pyStrip w ≠ "")
  ((sortByCountDesc (buildFreq keywords)).take 10).map (·.1)

/-- The section dict built for the heading matched at 0-based line `i`
(`m` is the `headingMatch` result for that line). -/
def secOfHeading (tokenize : String → List String) (content : String) (i : Nat)
    (m : Nat × String) : HeadingNode :=
  let sectionContent := extractSectionContent content i m.1
  let title := pyStrip m.2
  { level := m.1
    title := title
    lineNumber := i + 1
    content := sectionContent
    keywords := extractKeywords tokenize (title ++ " " ++ pyTake 200 sectionContent) }

/-- `_analyze_document_structure`: scan the lines, and for each heading line build
its section record. -/
def analyzeDocumentStructure (tokenize : String → List String) (content : String) :
    List HeadingNode :=
  ((splitLines content).enum).filterMap (fun p =>
    (headingMatch p.2).map (secOfHeading tokenize content p.1))

/-- The `(0-based line index, level)` pairs of all heading lines, scanning a line
list whose first element sits at global index `i`.  This is the skeleton of
`_analyze_document_structure` used in boundary proofs. -/
def headsFrom (i : Nat) : List String → List (Nat × Nat)
  | [] => []
  | l :: ls =>
    match headingLevel l with
    | some n => (i, n) :: headsFrom (i + 1) ls
    | none => headsFrom (i + 1) ls

/-- Adjacent heading levels never increase (each heading's span stops at the very
next heading). -/
def levelsNonIncreasing : List HeadingNode → Bool
  | [] => true
  | [_] => true
  | a :: b :: rest => (b.level ≤ a.level : Bool) && levelsNonIncreasing (b :: rest)

/-- `levelsNonIncreasing` on bare `(index, level)` pairs. -/
def headsNonIncreasing : List (Nat × Nat) → Bool
  | [] => true
  | [_] => true
  | a :: b :: rest => (b.2 ≤ a.2 : Bool) && headsNonIncreasing (b :: rest)

/-- The reconstruction described by the design document's §8 bullet: each heading
line concatenated with the lines of its derived `sectionContent`, in structure
order.  (This definition follows the specification's words; it is compared against
the parser's actual output.) -/
def claimedReconstruction (tokenize : String → List String) (content : String) :
    List String :=
  (analyzeDocumentStructure tokenize content).flatMap (fun s =>
    ((splitLines content).getD (s.lineNumber - 1) "") ::
      (if s.content = "" then [] else splitLines s.content))

/-!  ## Similarity scorer and section matcher -/

/-- The configuration loaded by `load_default_matching_rules`. -/
structure MatchingRules where
  keywordsWeight : ℚ
  structureWeight : ℚ
  positionWeight : ℚ
  minSimilarity : ℚ
  mainSeparator : String
  subSeparator : String
deriving DecidableEq

/-- The default matching rules (`0.5 / 0.3 / 0.2 / 0.1` and the content separators). -/
def defaultMatchingRules : MatchingRules :=
  { keywordsWeight := 1/2
    structureWeight := 3/10
    positionWeight := 1/5
    minSimilarity := 1/10
    mainSeparator := "\n--- 子规划内容 ---\n"
    subSeparator := "\n\n" }

/-- A loaded subplan (the dict built by `_load_subplans`; the design document
calls it `SubplanDocument`). -/
structure SubplanDocument where
  name : String
  content : String
  docStructure : List HeadingNode
  keywords : List String
deriving DecidableEq, Repr

/-- The keyword-overlap part of `_calculate_similarity`: Jaccard similarity of the
two keyword sets, 0 when either is empty. -/
def keywordSimilarity (A B : Finset String) : ℚ :=
  if A = ∅ ∨ B = ∅ then 0
  else if A ∪ B = ∅ then 0
  else ((A ∩ B).card : ℚ) / ((A ∪ B).card : ℚ)

/-- `_calculate_similarity`, with `difflib.SequenceMatcher(None, a, b).ratio()`
abstracted as `ratio`: the weighted blend of keyword overlap and the character
ratio of `subplan.content[:500]` against `title + ' ' + content[:500]`. -/
def calculateSimilarity (ratio : String → String → ℚ) (sp : SubplanDocument)
    (sec : HeadingNode) : ℚ :=
  let kw := keywordSimilarity sp.keywords.toFinset sec.keywords.toFinset
  let text := ratio (pyTake 500 sp.content) (sec.title ++ " " ++ pyTake 500 sec.content)
  kw * defaultMatchingRules.keywordsWeight +
    text * (1 - defaultMatchingRules.keywordsWeight)

/-- `_generate_match_reason`, with `list(set(a) & set(b))` abstracted as
`enum a b`: Python's iteration order over a `set` of strings depends on the
per-process hash seed, so the enumeration is a parameter.  The reason lists up to
3 common keywords plus a qualitative bucket. -/
def generateMatchReason (enum : List String → List String → List String)
    (sp : SubplanDocument) (sec : HeadingNode) (sim : ℚ) : String :=
  let common := enum sp.keywords sec.keywords
  let parts :=
    (if common.isEmpty then [] else
      ["共同关键词: " ++ joinWith ", " (common.take 3)]) ++
    [if 1/2 < sim then "内容高度相关"
     else if 3/10 < sim then "内容较为相关"
     else "内容部分相关"]
  joinWith "; " parts

/-- The `best_match` dict of `_find_best_section_match`. -/
structure BestMatch where
  sectionIndex : Nat
  sectionTitle : String
  similarity : ℚ
  reason : String
deriving DecidableEq

/-- The loop of `_find_best_section_match`: skip sections of level > 3, keep the
running maximum using strict `>` (so the first of an exact tie is retained). -/
def findBestLoop (ratio : String → String → ℚ)
    (enum : List String → List String → List String) (sp : SubplanDocument) :
    List (Nat × HeadingNode) → Option BestMatch × ℚ → Option BestMatch × ℚ
  | [], acc => acc
  | (i, sec) :: rest, (best, maxSim) =>
    if 3 < sec.level then findBestLoop ratio enum sp rest (best, maxSim)
    else
      let sim := calculateSimilarity ratio sp sec
      if maxSim < sim then
        findBestLoop ratio enum sp rest
          (some { sectionIndex := i, sectionTitle := sec.title, similarity := sim,
                  reason := generateMatchReason enum sp sec sim }, sim)
      else findBestLoop ratio enum sp rest (best, maxSim)

/-- `_find_best_section_match`: run the loop from `(None, 0)` and return the best
match only when the final maximum is strictly positive. -/
def findBestSectionMatch (ratio : String → String → ℚ)
    (enum : List String → List String → List String) (sp : SubplanDocument)
    (ms : List HeadingNode) : Option BestMatch :=
  let r := findBestLoop ratio enum sp (ms.enum) (none, 0)
  if 0 < r.2 then r.1 else none

/-- One entry of the match list (the design document's `MatchResult`). -/
structure MatchResult where
  subplan : String
  sectionIndex : Nat
  sectionTitle : String
  similarity : ℚ
  matchReason : String
deriving DecidableEq, Repr

/-- `_match_subplans_to_sections`: keep, per subplan in order, its best match when
that match's similarity reaches `min_similarity`. -/
def matchSubplansToSections (ratio : String → String → ℚ)
    (enum : List String → List String → List String)
    (subplans : List SubplanDocument) (ms : List HeadingNode) : List MatchResult :=
  subplans.filterMap (fun sp =>
    match findBestSectionMatch ratio enum sp ms with
    | some b =>
      if defaultMatchingRules.minSimilarity ≤ b.similarity then
        some { subplan := sp.name, sectionIndex := b.sectionIndex,
               sectionTitle := b.sectionTitle, similarity := b.similarity,
               matchReason := b.reason }
      else none
    | none => none)

/-- The hash-seed-independent part of a `MatchResult` (everything but the reason
string). -/
def dropReason (m : MatchResult) : String × Nat × String × ℚ :=
  (m.subplan, m.sectionIndex, m.sectionTitle, m.similarity)

/-- The hash-seed-independent part of a `BestMatch`. -/
def dropBestReason (b : BestMatch) : Nat × String × ℚ :=
  (b.sectionIndex, b.sectionTitle, b.similarity)

/-!  ## Document merger (`_generate_merged_document`) -/

/-- The lines appended for one inserted subplan block: the separator marker (one
`result_lines` element containing its surrounding newlines, exactly as in the
source), the labeled header, a blank line, every non-blank subplan line prefixed
with two spaces, and a trailing blank line. -/
def blockLines (sub : SubplanDocument) : List String :=
  defaultMatchingRules.mainSeparator ::
    ("### 📋 " ++ sub.name) :: "" ::
    (((splitLines sub.content).filter (fun l => pyStrip l ≠ "")).map
      (fun l => "  " ++ l) ++ [""])

/-- `subplan_dict[name]`: Python dict comprehension keeps the last entry per key;
`none` models a `KeyError`. -/
def lookupSubplan (subs : List SubplanDocument) (name : String) :
    Option SubplanDocument :=
  subs.reverse.find? (fun sp => sp.name = name)

/-- The sort key of `matches_by_line`: `master_structure[x['section_index']]['line_number']`
(the out-of-range default is never used; `sortMatchesByLineDesc` rejects
out-of-range indices first, as Python raises there). -/
def matchKey (ms : List HeadingNode) (m : MatchResult) : Nat :=
  match ms.get? m.sectionIndex with
  | some sec => sec.lineNumber
  | none => 0

/-- Stable descending insertion step for `sorted(..., reverse=True)`: the new
element goes behind every already-placed element of key ≥ its own. -/
def insertByKeyDesc (ms : List HeadingNode) (m : MatchResult) :
    List MatchResult → List MatchResult
  | [] => [m]
  | x :: xs =>
    if matchKey ms m ≤ matchKey ms x then x :: insertByKeyDesc ms m xs
    else m :: x :: xs

/-- `sorted(matches, key=..., reverse=True)`: Python's sort is stable, and any two
stable descending sorts by the same key agree, so stable insertion computes the
same list.  Python evaluates the key on every element (raising `IndexError` on an
out-of-range section index), modelled by the validity guard. -/
def sortMatchesByLineDesc (ms : List HeadingNode) (matchList : List MatchResult) :
    Option (List MatchResult) :=
  if matchList.all (fun m => m.sectionIndex < ms.length) then
    some (matchList.foldl (fun acc m => insertByKeyDesc ms m acc) [])
  else none

/-- The inner `for match in matches_by_line` loop at emitted line `i`: scan for the
first match whose section's `line_number` equals `i` and whose section index is
not yet claimed.  `none` models the `IndexError` Python raises when a scanned
match has an out-of-range section index. -/
def findInsertion (ms : List HeadingNode) (processed : List Nat) (i : Nat) :
    List MatchResult → Option (Option MatchResult)
  | [] => some none
  | m :: rest =>
    match ms.get? m.sectionIndex with
    | none => none
    | some sec =>
      if sec.lineNumber = i ∧ processed.contains m.sectionIndex = false then
        some (some m)
      else findInsertion ms processed i rest

/-- The emission loop of `_generate_merged_document`: walk the master lines with a
0-based index, emit each line, and after a line whose index carries an insertable
match emit that subplan's block and claim the section index.  Returns the
`result_lines`, the final claimed-index set and the list of insertion events
`(line index, match)`; `none` models an uncaught `IndexError`/`KeyError`. -/
def emitLoop (ms : List HeadingNode) (subs : List SubplanDocument)
    (mbl : List MatchResult) :
    Nat → List Nat → List String →
    Option (List String × List Nat × List (Nat × MatchResult))
  | _, processed, [] => some ([], processed, [])
  | i, processed, line :: rest =>
    match findInsertion ms processed i mbl with
    | none => none
    | some none =>
      match emitLoop ms subs mbl (i + 1) processed rest with
      | none => none
      | some (out, p, evs) => some (line :: out, p, evs)
    | some (some m) =>
      match lookupSubplan subs m.subplan with
      | none => none
      | some sub =>
        match emitLoop ms subs mbl (i + 1) (m.sectionIndex :: processed) rest with
        | none => none
        | some (out, p, evs) =>
          some (line :: (blockLines sub ++ out), p, (i, m) :: evs)

/-- `_generate_merged_document` up to the final `'\n'.join`: sort the matches by
line number descending (stable) and run the emission loop from index 0 with an
empty claimed set. -/
def emitAll (masterContent : String) (ms : List HeadingNode)
    (matchList : List MatchResult) (subs : List SubplanDocument) :
    Option (List String × List Nat × List (Nat × MatchResult)) :=
  (sortMatchesByLineDesc ms matchList).bind (fun mbl =>
    emitLoop ms subs mbl 0 [] (splitLines masterContent))

/-- The `result_lines` produced by `_generate_merged_document`. -/
def mergedResultLines (masterContent : String) (ms : List HeadingNode)
    (matchList : List MatchResult) (subs : List SubplanDocument) :
    Option (List String) :=
  (emitAll masterContent ms matchList subs).map (·.1)

/-- The insertion events of `_generate_merged_document`. -/
def mergeEvents (masterContent : String) (ms : List HeadingNode)
    (matchList : List MatchResult) (subs : List SubplanDocument) :
    Option (List (Nat × MatchResult)) :=
  (emitAll masterContent ms matchList subs).map (·.2.2)

/-- `_generate_merged_document`: the emitted lines joined with `'\n'`. -/
def generateMergedDocument (masterContent : String) (ms : List HeadingNode)
    (matchList : List MatchResult) (subs : List SubplanDocument) : Option String :=
  (mergedResultLines masterContent ms matchList subs).map joinLines

/-- The block contributed by an insertion event (empty only in the impossible
missing-name case, which `emitLoop` turns into `none` instead). -/
def blockFor (subs : List SubplanDocument) (m : MatchResult) : List String :=
  match lookupSubplan subs m.subplan with
  | some sub => blockLines sub
  | none => []

/-- Declarative shape of the merged line list: every master line in original
order, and immediately after the line at 0-based index `i`, the block of the
insertion event recorded at `i` (if any).  `emitLoop` is proved to produce
exactly this. -/
def interleave (subs : List SubplanDocument) (evs : List (Nat × MatchResult)) :
    Nat → List String → List String
  | _, [] => []
  | i, l :: ls =>
    l :: ((match evs.find? (fun e => e.1 == i) with
           | some e => blockFor subs e.2
           | none => []) ++ interleave subs evs (i + 1) ls)

/-!  ## Top-level pipeline (`merge_plans`) -/

/-- `_load_subplans`, over the directory listing abstracted as `(name, content)`
pairs: skip files whose name starts with the reserved master prefixes, and build
each subplan record with the same parser and keyword extractor. -/
def loadSubplans (tokenize : String → List String)
    (files : List (String × String)) : List SubplanDocument :=
  (files.filter (fun f => !(pyStartsWith "总纲" f.1 || pyStartsWith "master" f.1))).map
    (fun f =>
      { name := f.1, content := f.2,
        docStructure := analyzeDocumentStructure tokenize f.2,
        keywords := extractKeywords tokenize f.2 })

/-- The report dict assembled at the end of `merge_plans`. -/
structure MergeReport where
  masterFile : String
  subplansCount : Nat
  matchesFound : Nat
  outputFile : String
  matchingDetails : List MatchResult
  unmatchedSubplans : List SubplanDocument
deriving DecidableEq

/-- Build the report: `matching_details` is the full match list; unmatched
subplans are those whose name appears in no match. -/
def mkMergeReport (masterFile outputFile : String) (subplans : List SubplanDocument)
    (matchList : List MatchResult) : MergeReport :=
  { masterFile := masterFile
    subplansCount := subplans.length
    matchesFound := matchList.length
    outputFile := outputFile
    matchingDetails := matchList
    unmatchedSubplans :=
      subplans.filter (fun sp => !((matchList.map (·.subplan)).contains sp.name)) }

/-- A file-system effect of one run: the only write to the output file. -/
inductive MergeEv where
  | writeOutput (path : String) (content : String)
deriving DecidableEq

/-- `merge_plans` as a trace semantics.  `readMaster` and `readSubplanFiles` are
the results of the two reads (`none` = the read raised).  The steps happen in
source order: read master, parse, read subplans, match, generate, then — only
when everything before succeeded — a single write of the complete merged text,
and the report.  A failing step aborts the run with no write event. -/
def mergePlansTrace (tokenize : String → List String)
    (ratio : String → String → ℚ)
    (enum : List String → List String → List String)
    (readMaster : Option String) (readSubplanFiles : Option (List (String × String)))
    (masterFile outputFile : String) : List MergeEv × Option MergeReport :=
  match readMaster with
  | none => ([], none)
  | some masterContent =>
    let ms := analyzeDocumentStructure tokenize masterContent
    match readSubplanFiles with
    | none => ([], none)
    | some files =>
      let subplans := loadSubplans tokenize files
      let matchList := matchSubplansToSections ratio enum subplans ms
      match generateMergedDocument masterContent ms matchList subplans with
      | none => ([], none)
      | some merged =>
        ([MergeEv.writeOutput outputFile merged],
         some (mkMergeReport masterFile outputFile subplans matchList))

/-!  ## Concrete scenario data -/

/-- A trivial tokenizer for concrete scenario runs (keyword fields play no role in
the merger, so any tokenizer gives the same merged text). -/
def tkNone : String → List String := fun _ => []

/-- A trivial character-ratio function for concrete scenario runs. -/
def ratioZero : String → String → ℚ := fun _ _ => 0

/-- One possible iteration order of Python's `list(set(a) & set(b))`: elements of
`a` also in `b`, deduplicated, in `a`-order.  (The real order depends on the
per-process string hash seed.) -/
def setInterOrderA (a b : List String) : List String :=
  (a.filter (fun x => b.contains x)).dedup

/-- Another possible iteration order of Python's `list(set(a) & set(b))`: the
reverse of `setInterOrderA`. -/
def setInterOrderB (a b : List String) : List String :=
  ((a.filter (fun x => b.contains x)).dedup).reverse

/-- The master document of scenario 2 (§8 of the design document). -/
def masterScenario : String := "# A\ncontentA\n# B\ncontentB\n"

/-- The subplan X of scenario 2, with content `"x1\nx2"`. -/
def subplanX : SubplanDocument :=
  { name := "X", content := "x1\nx2", docStructure := [], keywords := [] }

/-- The match of subplan X to section `"# A"` (index 0) of `masterScenario`. -/
def matchX : MatchResult :=
  { subplan := "X", sectionIndex := 0, sectionTitle := "A", similarity := 1/2,
    matchReason := "r" }

/-- A master whose first section has two content lines (for locating the insertion
point precisely). -/
def masterThreeLines : String := "# A\nb\nc"

/-- A subplan with a single content line. -/
def subplanY : SubplanDocument :=
  { name := "X", content := "x1", docStructure := [], keywords := [] }

/-- The first-processed subplan of scenario 3. -/
def subplanS1 : SubplanDocument :=
  { name := "S1", content := "s1line", docStructure := [], keywords := [] }

/-- The second-processed subplan of scenario 3. -/
def subplanS2 : SubplanDocument :=
  { name := "S2", content := "s2line", docStructure := [], keywords := [] }

/-- Scenario 3: S1's match to section index 0. -/
def matchS1 : MatchResult :=
  { subplan := "S1", sectionIndex := 0, sectionTitle := "A", similarity := 1/2,
    matchReason := "r1" }

/-- Scenario 3: S2's match to the same section index 0. -/
def matchS2 : MatchResult :=
  { subplan := "S2", sectionIndex := 0, sectionTitle := "A", similarity := 2/5,
    matchReason := "r2" }

/-- A subplan sharing the keywords `aa`, `bb` with `sectionShared`. -/
def subplanShared : SubplanDocument :=
  { name := "S", content := "", docStructure := [], keywords := ["aa", "bb"] }

/-- A master section with the same keyword set as `subplanShared`. -/
def sectionShared : HeadingNode :=
  { level := 1, title := "T", lineNumber := 1, content := "", keywords := ["aa", "bb"] }

/-- A master text that does not end with a newline and whose final line is a
heading. -/
def masterLastHeading : String := "# A"

/-- A match targeting the final-line heading of `masterLastHeading`. -/
def matchLast : MatchResult :=
  { subplan := "X", sectionIndex := 0, sectionTitle := "A", similarity := 1/2,
    matchReason := "r" }

section
/- The Batteries rational-arithmetic operations are `@[irreducible]`; concrete
evaluation in the proofs below needs them to unfold. -/
attribute [local semireducible] Rat.add Rat.mul Rat.inv Rat.sub Rat.ofScientific

/-- Claim C8: the keyword similarity is symmetric, equals 1 on equal non-empty
keyword sets, and equals 0 when either set is empty. -/
theorem c8_keyword_similarity_props (A B : Finset String) :
    keywordSimilarity A B = keywordSimilarity B A ∧
    (A = B → A ≠ ∅ → keywordSimilarity A B = 1) ∧
    ((A = ∅ ∨ B = ∅) → keywordSimilarity A B = 0) := by
  refine ⟨?_, ?_, ?_⟩
  · by_cases hA : A = ∅
    · simp [keywordSimilarity, hA]
    · by_cases hB : B = ∅
      · simp [keywordSimilarity, hA, hB]
      · have h : ¬(A = ∅ ∨ B = ∅) := by tauto
        have h' : ¬(B = ∅ ∨ A = ∅) := by tauto
        rw [keywordSimilarity, keywordSimilarity, if_neg h, if_neg h',
          Finset.union_comm B A, Finset.inter_comm B A]
  · intro hAB hA
    subst hAB
    have hcard : (A.card : ℚ) ≠ 0 :=
      Nat.cast_ne_zero.mpr (fun hc => hA (Finset.card_eq_zero.mp hc))
    rw [keywordSimilarity, if_neg (by simpa using hA), Finset.union_self,
      Finset.inter_self, if_neg hA, div_self hcard]
  · intro h
    rw [keywordSimilarity, if_pos h]

/-- Witness for C8 at concrete keyword sets. -/
theorem c8_keyword_similarity_props_witness :
    keywordSimilarity {"a"} {"a"} = 1 ∧ keywordSimilarity ∅ {"a"} = 0 :=
  ⟨(c8_keyword_similarity_props {"a"} {"a"}).2.1 rfl (by decide),
   (c8_keyword_similarity_props ∅ {"a"}).2.2 (Or.inl rfl)⟩

/-- Claim C5 (scenario 2): merging `"# A\ncontentA\n# B\ncontentB\n"` with subplan
X (content `"x1\nx2"`) matched to section `"# A"` yields, in order: `"# A"`, then
`"contentA"`, then the separator and labeled header block, then `"  x1"` and
`"  x2"`, then `"# B"` and `"contentB"` unchanged. -/
theorem c5_scenario_two_merge_order :
    mergedResultLines masterScenario (analyzeDocumentStructure tkNone masterScenario)
        [matchX] [subplanX] =
      some ["# A", "contentA", "\n--- 子规划内容 ---\n", "### 📋 X", "", "  x1",
        "  x2", "", "# B", "contentB", ""] ∧
    generateMergedDocument masterScenario (analyzeDocumentStructure tkNone masterScenario)
        [matchX] [subplanX] =
      some "# A\ncontentA\n\n--- 子规划内容 ---\n\n### 📋 X\n\n  x1\n  x2\n\n# B\ncontentB\n" ∧
    isSubseq ["# A", "contentA", "--- 子规划内容 ---", "### 📋 X", "  x1", "  x2", "# B", "contentB"]
      (splitLines "# A\ncontentA\n\n--- 子规划内容 ---\n\n### 📋 X\n\n  x1\n  x2\n\n# B\ncontentB\n") = true :=
  ⟨by decide, by decide, by decide⟩

/-- Claim C6: a failing step before the output write (master read, subplan read,
or an exception inside generation) produces no write event at all; otherwise the
trace holds exactly one write carrying the complete merged document. -/
theorem c6_no_partial_output (tk : String → List String) (ratio : String → String → ℚ)
    (enum : List String → List String → List String) (rm : Option String)
    (rfiles : Option (List (String × String))) (mf outf : String) :
    (mergePlansTrace tk ratio enum rm rfiles mf outf).1 = [] ∨
    ∃ mc files merged,
      rm = some mc ∧ rfiles = some files ∧
      generateMergedDocument mc (analyzeDocumentStructure tk mc)
        (matchSubplansToSections ratio enum (loadSubplans tk files)
          (analyzeDocumentStructure tk mc))
        (loadSubplans tk files) = some merged ∧
      (mergePlansTrace tk ratio enum rm rfiles mf outf).1 =
        [MergeEv.writeOutput outf merged] := by
  cases rm with
  | none => exact Or.inl rfl
  | some mc =>
    cases rfiles with
    | none => exact Or.inl rfl
    | some files =>
      cases hg : generateMergedDocument mc (analyzeDocumentStructure tk mc)
          (matchSubplansToSections ratio enum (loadSubplans tk files)
            (analyzeDocumentStructure tk mc)) (loadSubplans tk files) with
      | none => exact Or.inl (by simp [mergePlansTrace, hg])
      | some merged =>
        exact Or.inr ⟨mc, files, merged, rfl, rfl, hg, by simp [mergePlansTrace, hg]⟩

/-- Counterexample to claim C9 as stated: with the same subplans in the same
order and the same master structure, two runs whose `set` iteration orders differ
(both being valid enumerations of the common-keyword set, as happens across runs
under Python's per-process string-hash randomization) produce different match
lists — the reason strings list the shared keywords in different orders. -/
theorem c9_reason_order_counterexample :
    (setInterOrderA subplanShared.keywords sectionShared.keywords).Nodup ∧
    (setInterOrderA subplanShared.keywords sectionShared.keywords).toFinset =
      subplanShared.keywords.toFinset ∩ sectionShared.keywords.toFinset ∧
    (setInterOrderB subplanShared.keywords sectionShared.keywords).Nodup ∧
    (setInterOrderB subplanShared.keywords sectionShared.keywords).toFinset =
      subplanShared.keywords.toFinset ∩ sectionShared.keywords.toFinset ∧
    matchSubplansToSections ratioZero setInterOrderA [subplanShared] [sectionShared] ≠
      matchSubplansToSections ratioZero setInterOrderB [subplanShared] [sectionShared] :=
  ⟨by decide, by decide, by decide, by decide, by decide⟩

end

/-- The matcher loop ignores the set-enumeration order everywhere except inside
the recorded reason string: from accumulators agreeing up to the reason, the two
runs agree up to the reason, with identical running maxima. -/
theorem findBestLoop_pair_eq (ratio : String → String → ℚ)
    (e1 e2 : List String → List String → List String) (sp : SubplanDocument) :
    ∀ (l : List (Nat × HeadingNode)) (b1 b2 : Option BestMatch) (mx : ℚ),
    b1.map dropBestReason = b2.map dropBestReason →
    ((findBestLoop ratio e1 sp l (b1, mx)).1.map dropBestReason =
        (findBestLoop ratio e2 sp l (b2, mx)).1.map dropBestReason) ∧
    (findBestLoop ratio e1 sp l (b1, mx)).2 = (findBestLoop ratio e2 sp l (b2, mx)).2
  | [], _, _, _, h => ⟨h, rfl⟩
  | (i, sec) :: rest, b1, b2, mx, h => by
    by_cases hl : 3 < sec.level
    · simp only [findBestLoop, if_pos hl]
      exact findBestLoop_pair_eq ratio e1 e2 sp rest b1 b2 mx h
    · by_cases hs : mx < calculateSimilarity ratio sp sec
      · simp only [findBestLoop, if_neg hl, if_pos hs]
        exact findBestLoop_pair_eq ratio e1 e2 sp rest _ _ _ (by simp [dropBestReason])
      · simp only [findBestLoop, if_neg hl, if_neg hs]
        exact findBestLoop_pair_eq ratio e1 e2 sp rest b1 b2 mx h

/-- `_find_best_section_match` is independent of the set-enumeration order, up to
the reason string. -/
theorem findBestSectionMatch_pair_eq (ratio : String → String → ℚ)
    (e1 e2 : List String → List String → List String) (sp : SubplanDocument)
    (ms : List HeadingNode) :
    (findBestSectionMatch ratio e1 sp ms).map dropBestReason =
      (findBestSectionMatch ratio e2 sp ms).map dropBestReason := by
  obtain ⟨h1, h2⟩ := findBestLoop_pair_eq ratio e1 e2 sp (ms.enum) none none 0 rfl
  simp only [findBestSectionMatch]
  by_cases hpos : 0 < (findBestLoop ratio e1 sp ms.enum (none, 0)).2
  · rw [if_pos hpos, if_pos (by rw [← h2]; exact hpos)]
    exact h1
  · rw [if_neg hpos, if_neg (by rw [← h2]; exact hpos)]

/-- `_match_subplans_to_sections` is independent of the set-enumeration order, up
to the reason strings. -/
theorem matchSubplansToSections_pair_eq (ratio : String → String → ℚ)
    (e1 e2 : List String → List String → List String) :
    ∀ (subplans : List SubplanDocument) (ms : List HeadingNode),
    (matchSubplansToSections ratio e1 subplans ms).map dropReason =
      (matchSubplansToSections ratio e2 subplans ms).map dropReason
  | [], _ => rfl
  | sp :: rest, ms => by
    have hb := findBestSectionMatch_pair_eq ratio e1 e2 sp ms
    have ih := matchSubplansToSections_pair_eq ratio e1 e2 rest ms
    simp only [matchSubplansToSections, List.filterMap_cons] at ih ⊢
    cases h1 : findBestSectionMatch ratio e1 sp ms with
    | none =>
      cases h2 : findBestSectionMatch ratio e2 sp ms with
      | none => simp only [h1, h2]; exact ih
      | some b2 => rw [h1, h2] at hb; simp at hb
    | some b1 =>
      cases h2 : findBestSectionMatch ratio e2 sp ms with
      | none => rw [h1, h2] at hb; simp at hb
      | some b2 =>
        rw [h1, h2] at hb
        simp only [Option.map_some', dropBestReason, Option.some.injEq,
          Prod.mk.injEq] at hb
        obtain ⟨hidx, htitle, hsim⟩ := hb
        simp only [h1, h2]
        by_cases ht : defaultMatchingRules.minSimilarity ≤ b1.similarity
        · rw [if_pos ht, if_pos (hsim ▸ ht)]
          simpa [dropReason, hidx, htitle, hsim] using ih
        · rw [if_neg ht, if_neg (hsim ▸ ht)]
          exact ih

/-- Claim C9 (amended): for identical inputs — same subplans in the same order,
same master structure, same character-ratio function — every run produces the
same match list up to the reason strings: subplan names, section indices, section
titles and similarity values are identical.  The reason string enumerates the
common keywords in Python `set` iteration order, which varies from run to run
with string-hash randomization (see the counterexample). -/
theorem c9_deterministic_up_to_reason (ratio : String → String → ℚ)
    (e1 e2 : List String → List String → List String)
    (subplans : List SubplanDocument) (ms : List HeadingNode) :
    (matchSubplansToSections ratio e1 subplans ms).map dropReason =
      (matchSubplansToSections ratio e2 subplans ms).map dropReason :=
  matchSubplansToSections_pair_eq ratio e1 e2 subplans ms

/-- A successful `findInsertion` scan returns a match from the list, targeting an
existing section whose `lineNumber` is the current loop index and whose index is
unclaimed. -/
theorem findInsertion_eq_some (ms : List HeadingNode) (p : List Nat) (i : Nat) :
    ∀ (mbl : List MatchResult) (m : MatchResult),
    findInsertion ms p i mbl = some (some m) →
    m ∈ mbl ∧ ∃ sec, ms.get? m.sectionIndex = some sec ∧ sec.lineNumber = i ∧
      p.contains m.sectionIndex = false
  | [], m => by intro h; simp [findInsertion] at h
  | m0 :: rest, m => by
    intro h
    simp only [findInsertion] at h
    cases hg : ms.get? m0.sectionIndex with
    | none => rw [hg] at h; exact Option.noConfusion h
    | some sec =>
      simp only [hg] at h
      by_cases hc : sec.lineNumber = i ∧ p.contains m0.sectionIndex = false
      · rw [if_pos hc] at h
        obtain rfl : m0 = m := by simpa using h
        exact ⟨List.mem_cons_self _ _, sec, hg, hc.1, hc.2⟩
      · rw [if_neg hc] at h
        obtain ⟨hm, hsec⟩ := findInsertion_eq_some ms p i rest m h
        exact ⟨List.mem_cons_of_mem _ hm, hsec⟩

/-- Inversion of one `emitLoop` step. -/
theorem emitLoop_cons_inv (ms : List HeadingNode) (subs : List SubplanDocument)
    (mbl : List MatchResult) (i : Nat) (p : List Nat) (line : String)
    (rest : List String) (r : List String × List Nat × List (Nat × MatchResult))
    (h : emitLoop ms subs mbl i p (line :: rest) = some r) :
    (∃ out' pf evs, findInsertion ms p i mbl = some none ∧
      emitLoop ms subs mbl (i + 1) p rest = some (out', pf, evs) ∧
      r = (line :: out', pf, evs)) ∨
    (∃ m sub out' pf evs, findInsertion ms p i mbl = some (some m) ∧
      lookupSubplan subs m.subplan = some sub ∧
      emitLoop ms subs mbl (i + 1) (m.sectionIndex :: p) rest = some (out', pf, evs) ∧
      r = (line :: (blockLines sub ++ out'), pf, (i, m) :: evs)) := by
  simp only [emitLoop] at h
  cases hfi : findInsertion ms p i mbl with
  | none => rw [hfi] at h; exact Option.noConfusion h
  | some o =>
    cases o with
    | none =>
      simp only [hfi] at h
      cases hrec : emitLoop ms subs mbl (i + 1) p rest with
      | none => rw [hrec] at h; exact Option.noConfusion h
      | some r' =>
        obtain ⟨out', pf, evs⟩ := r'
        simp only [hrec, Option.some.injEq] at h
        exact Or.inl ⟨out', pf, evs, rfl, rfl, h.symm⟩
    | some m =>
      simp only [hfi] at h
      cases hlk : lookupSubplan subs m.subplan with
      | none => rw [hlk] at h; exact Option.noConfusion h
      | some sub =>
        simp only [hlk] at h
        cases hrec : emitLoop ms subs mbl (i + 1) (m.sectionIndex :: p) rest with
        | none => rw [hrec] at h; exact Option.noConfusion h
        | some r' =>
          obtain ⟨out', pf, evs⟩ := r'
          simp only [hrec, Option.some.injEq] at h
          exact Or.inr ⟨m, sub, out', pf, evs, rfl, hlk, hrec, h.symm⟩

/-- Inversion of `emitLoop` on the empty line list. -/
theorem emitLoop_nil_inv (ms : List HeadingNode) (subs : List SubplanDocument)
    (mbl : List MatchResult) (i : Nat) (p : List Nat)
    (r : List String × List Nat × List (Nat × MatchResult))
    (h : emitLoop ms subs mbl i p [] = some r) : r = ([], p, []) := by
  simpa [emitLoop, eq_comm] using h

/-- Every insertion event of `emitLoop` happens at a loop index in range, for a
match from the list, at exactly that match's section `lineNumber`. -/
theorem emitLoop_events (ms : List HeadingNode) (subs : List SubplanDocument)
    (mbl : List MatchResult) :
    ∀ (ls : List String) (i₀ : Nat) (p : List Nat)
      (r : List String × List Nat × List (Nat × MatchResult)),
    emitLoop ms subs mbl i₀ p ls = some r →
    ∀ e ∈ r.2.2, i₀ ≤ e.1 ∧ e.1 < i₀ + ls.length ∧ e.2 ∈ mbl ∧
      ∃ sec, ms.get? e.2.sectionIndex = some sec ∧ sec.lineNumber = e.1
  | [], i₀, p, r => by
    intro h e he
    rw [emitLoop_nil_inv ms subs mbl i₀ p r h] at he
    simp at he
  | line :: rest, i₀, p, r => by
    intro h e he
    rcases emitLoop_cons_inv ms subs mbl i₀ p line rest r h with
      ⟨out', pf, evs, _, hrec, rfl⟩ |
      ⟨m, sub, out', pf, evs, hfi, _, hrec, rfl⟩
    · have := emitLoop_events ms subs mbl rest (i₀ + 1) p (out', pf, evs) hrec e he
      exact ⟨by omega, by simp only [List.length_cons]; omega, this.2.2⟩
    · rcases List.mem_cons.mp he with rfl | he'
      · obtain ⟨hm, sec, hget, hline, _⟩ := findInsertion_eq_some ms p i₀ mbl m hfi
        exact ⟨le_refl _, by simp only [List.length_cons]; omega, hm, sec, hget, hline⟩
      · have := emitLoop_events ms subs mbl rest (i₀ + 1) (m.sectionIndex :: p)
          (out', pf, evs) hrec e he'
        exact ⟨by omega, by simp only [List.length_cons]; omega, this.2.2⟩

/-- The insertion events of `emitLoop` claim pairwise-distinct section indices,
none of which was already claimed on entry. -/
theorem emitLoop_claimed (ms : List HeadingNode) (subs : List SubplanDocument)
    (mbl : List MatchResult) :
    ∀ (ls : List String) (i₀ : Nat) (p : List Nat)
      (r : List String × List Nat × List (Nat × MatchResult)),
    emitLoop ms subs mbl i₀ p ls = some r →
    (∀ e ∈ r.2.2, p.contains e.2.sectionIndex = false) ∧
      (r.2.2.map (fun e => e.2.sectionIndex)).Nodup
  | [], i₀, p, r => by
    intro h
    rw [emitLoop_nil_inv ms subs mbl i₀ p r h]
    simp
  | line :: rest, i₀, p, r => by
    intro h
    rcases emitLoop_cons_inv ms subs mbl i₀ p line rest r h with
      ⟨out', pf, evs, _, hrec, rfl⟩ |
      ⟨m, sub, out', pf, evs, hfi, _, hrec, rfl⟩
    · exact emitLoop_claimed ms subs mbl rest (i₀ + 1) p (out', pf, evs) hrec
    · obtain ⟨hp, hnd⟩ :=
        emitLoop_claimed ms subs mbl rest (i₀ + 1) (m.sectionIndex :: p) (out', pf, evs) hrec

      obtain ⟨_, sec, _, _, hpm⟩ := findInsertion_eq_some ms p i₀ mbl m hfi
      refine ⟨?_, ?_⟩
      · intro e he
        rcases List.mem_cons.mp he with rfl | he'
        · exact hpm
        · have := hp e he'
          simp only [List.contains_cons, Bool.or_eq_false_iff] at this
          exact this.2
      · simp only [List.map_cons, List.nodup_cons]
        refine ⟨?_, hnd⟩
        intro hmem
        obtain ⟨e, he, heq⟩ := List.mem_map.mp hmem
        have := hp e he
        simp only [List.contains_cons, Bool.or_eq_false_iff] at this
        rw [heq] at this
        simp at this

/-- An event list whose head position lies below `i` contributes nothing at
positions ≥ `i`. -/
theorem interleave_cons_lt (subs : List SubplanDocument) (e₀ : Nat × MatchResult)
    (evs : List (Nat × MatchResult)) :
    ∀ (ls : List String) (i : Nat), e₀.1 < i →
    interleave subs (e₀ :: evs) i ls = interleave subs evs i ls
  | [], _, _ => rfl
  | l :: ls, i, hlt => by
    simp only [interleave]
    rw [List.find?_cons_of_neg _ (by simp; omega),
      interleave_cons_lt subs e₀ evs ls (i + 1) (by omega)]

/-- The `result_lines` of `emitLoop` are exactly the master lines interleaved
with each event's block immediately after the event's line. -/
theorem emitLoop_out (ms : List HeadingNode) (subs : List SubplanDocument)
    (mbl : List MatchResult) :
    ∀ (ls : List String) (i₀ : Nat) (p : List Nat)
      (r : List String × List Nat × List (Nat × MatchResult)),
    emitLoop ms subs mbl i₀ p ls = some r →
    r.1 = interleave subs r.2.2 i₀ ls
  | [], i₀, p, r => fun h => by rw [emitLoop_nil_inv ms subs mbl i₀ p r h]; rfl
  | line :: rest, i₀, p, r => fun h => by
    rcases emitLoop_cons_inv ms subs mbl i₀ p line rest r h with
      ⟨out', pf, evs, _, hrec, rfl⟩ | ⟨m, sub, out', pf, evs, _, hlk, hrec, rfl⟩
    · have hout := emitLoop_out ms subs mbl rest (i₀ + 1) p (out', pf, evs) hrec
      have hev := emitLoop_events ms subs mbl rest (i₀ + 1) p (out', pf, evs) hrec
      have hnone : evs.find? (fun e => e.1 == i₀) = none := by
        apply List.find?_eq_none.mpr
        intro e he
        have := (hev e he).1
        simp
        omega
      simp only [interleave, hnone, List.nil_append]
      exact congrArg (line :: ·) hout
    · have hout := emitLoop_out ms subs mbl rest (i₀ + 1) (m.sectionIndex :: p)
        (out', pf, evs) hrec
      have hfind : (((i₀, m) :: evs).find? (fun e => e.1 == i₀)) = some (i₀, m) :=
        List.find?_cons_of_pos _ (by simp)
      simp only [interleave, hfind]
      rw [interleave_cons_lt subs (i₀, m) evs rest (i₀ + 1) (by omega), ← hout]
      simp only [blockFor, hlk]

/-- Membership through one stable descending insertion step. -/
theorem mem_insertByKeyDesc (ms : List HeadingNode) (m x : MatchResult) :
    ∀ l : List MatchResult, x ∈ insertByKeyDesc ms m l → x = m ∨ x ∈ l := by
  intro l
  induction l with
  | nil => intro h; simp [insertByKeyDesc] at h; exact Or.inl h
  | cons y ys ih =>
    intro h
    simp only [insertByKeyDesc] at h
    by_cases hc : matchKey ms m ≤ matchKey ms y
    · rw [if_pos hc] at h
      rcases List.mem_cons.mp h with rfl | h'
      · exact Or.inr (List.mem_cons_self _ _)
      · rcases ih h' with rfl | hmem
        · exact Or.inl rfl
        · exact Or.inr (List.mem_cons_of_mem _ hmem)
    · rw [if_neg hc] at h
      rcases List.mem_cons.mp h with rfl | h'
      · exact Or.inl rfl
      · exact Or.inr h'

/-- Membership through the stable-sort fold. -/
theorem mem_sortFold (ms : List HeadingNode) (x : MatchResult) :
    ∀ (l acc : List MatchResult),
    x ∈ l.foldl (fun a m => insertByKeyDesc ms m a) acc → x ∈ acc ∨ x ∈ l
  | [], _, h => Or.inl h
  | m :: rest, acc, h => by
    rcases mem_sortFold ms x rest (insertByKeyDesc ms m acc) h with hacc | hrest
    · rcases mem_insertByKeyDesc ms m x acc hacc with rfl | h'
      · exact Or.inr (List.mem_cons_self _ _)
      · exact Or.inl h'
    · exact Or.inr (List.mem_cons_of_mem _ hrest)

/-- Every element of the sorted match list comes from the input match list. -/
theorem sortMatches_mem (ms : List HeadingNode) (matchList mbl : List MatchResult)
    (h : sortMatchesByLineDesc ms matchList = some mbl) :
    ∀ m ∈ mbl, m ∈ matchList := by
  intro m hm
  simp only [sortMatchesByLineDesc] at h
  by_cases hall : matchList.all (fun m => m.sectionIndex < ms.length)
  · rw [if_pos hall] at h
    rcases mem_sortFold ms m matchList [] (by rw [Option.some.inj h]; exact hm) with h0 | h1
    · simp at h0
    · exact h1
  · rw [if_neg hall] at h; exact Option.noConfusion h

/-- Inversion of a successful `emitAll` run. -/
theorem emitAll_eq_some (masterContent : String) (ms : List HeadingNode)
    (matchList : List MatchResult) (subs : List SubplanDocument)
    (r : List String × List Nat × List (Nat × MatchResult))
    (h : emitAll masterContent ms matchList subs = some r) :
    ∃ mbl, sortMatchesByLineDesc ms matchList = some mbl ∧
      emitLoop ms subs mbl 0 [] (splitLines masterContent) = some r := by
  simp only [emitAll] at h
  cases hs : sortMatchesByLineDesc ms matchList with
  | none => rw [hs] at h; exact Option.noConfusion h
  | some mbl => rw [hs] at h; exact ⟨mbl, rfl, h⟩

section
attribute [local semireducible] Rat.add Rat.mul Rat.inv Rat.sub Rat.ofScientific

/-- Counterexample to claim C1 as stated: merging `"# A\nb\nc"` with one match
targeting section `"# A"`, the line emitted directly after the heading line is
the master line `"b"`; the inserted block begins only after it.  The output is
not the heading line followed directly by the block (the emission compares the
0-based loop index with the 1-based stored heading line number). -/
theorem c1_block_not_directly_after_heading :
    mergedResultLines masterThreeLines (analyzeDocumentStructure tkNone masterThreeLines)
        [matchX] [subplanY] =
      some ["# A", "b", "\n--- 子规划内容 ---\n", "### 📋 X", "", "  x1", "", "c"] ∧
    mergedResultLines masterThreeLines (analyzeDocumentStructure tkNone masterThreeLines)
        [matchX] [subplanY] ≠
      some (["# A"] ++ blockLines subplanY ++ ["b", "c"]) :=
  ⟨by decide, by decide⟩

/-- Claim C1 (amended): every inserted block is emitted immediately after the
line at 0-based position equal to the matched section's stored 1-based heading
line number — that is, directly after the line FOLLOWING the heading line — and
only for a section index not yet claimed, so each section index receives at most
one block; the merged line list is exactly the master lines in original order
with each event's block spliced in at that position. -/
theorem c1_amended_block_position (content : String) (ms : List HeadingNode)
    (matchList : List MatchResult) (subs : List SubplanDocument)
    (out : List String) (evs : List (Nat × MatchResult))
    (hout : mergedResultLines content ms matchList subs = some out)
    (hev : mergeEvents content ms matchList subs = some evs) :
    (∀ e ∈ evs, e.2 ∈ matchList ∧
      ∃ sec, ms.get? e.2.sectionIndex = some sec ∧ sec.lineNumber = e.1) ∧
    (evs.map (fun e => e.2.sectionIndex)).Nodup ∧
    out = interleave subs evs 0 (splitLines content) := by
  simp only [mergedResultLines, mergeEvents] at hout hev
  cases hr : emitAll content ms matchList subs with
  | none => rw [hr] at hout; exact Option.noConfusion hout
  | some r =>
    rw [hr] at hout hev
    simp only [Option.map_some', Option.some.injEq] at hout hev
    obtain ⟨mbl, hs, hloop⟩ := emitAll_eq_some content ms matchList subs r hr
    subst hout
    subst hev
    refine ⟨?_, ?_, ?_⟩
    · intro e he
      obtain ⟨_, _, hmem, hsec⟩ :=
        emitLoop_events ms subs mbl (splitLines content) 0 [] r hloop e he
      exact ⟨sortMatches_mem ms matchList mbl hs e.2 hmem, hsec⟩
    · exact (emitLoop_claimed ms subs mbl (splitLines content) 0 [] r hloop).2
    · exact emitLoop_out ms subs mbl (splitLines content) 0 [] r hloop

/-- Witness for the amended C1 at the concrete three-line master. -/
theorem c1_amended_block_position_witness :
    (∀ e ∈ ([(1, matchX)] : List (Nat × MatchResult)), e.2 ∈ [matchX] ∧
      ∃ sec, (analyzeDocumentStructure tkNone masterThreeLines).get?
          e.2.sectionIndex = some sec ∧ sec.lineNumber = e.1) ∧
    ((([(1, matchX)] : List (Nat × MatchResult)).map (fun e => e.2.sectionIndex)).Nodup) ∧
    (["# A", "b", "\n--- 子规划内容 ---\n", "### 📋 X", "", "  x1", "", "c"] : List String) =
      interleave [subplanY] [(1, matchX)] 0 (splitLines masterThreeLines) :=
  c1_amended_block_position masterThreeLines
    (analyzeDocumentStructure tkNone masterThreeLines) [matchX] [subplanY]
    ["# A", "b", "\n--- 子规划内容 ---\n", "### 📋 X", "", "  x1", "", "c"]
    [(1, matchX)] (by decide) (by decide)

/-- Claim C3: when two subplans match the same master section, exactly one block
is inserted (the first-processed subplan's), the other subplan's header appears
nowhere in the output; in general the events claim pairwise-distinct section
indices, and the report's match list is the full match list (skipped matches
included). -/
theorem c3_single_insertion_per_section :
    mergedResultLines masterScenario (analyzeDocumentStructure tkNone masterScenario)
        [matchS1, matchS2] [subplanS1, subplanS2] =
      some ["# A", "contentA", "\n--- 子规划内容 ---\n", "### 📋 S1", "", "  s1line", "",
        "# B", "contentB", ""] ∧
    mergeEvents masterScenario (analyzeDocumentStructure tkNone masterScenario)
        [matchS1, matchS2] [subplanS1, subplanS2] = some [(1, matchS1)] ∧
    "### 📋 S2" ∉ (["# A", "contentA", "\n--- 子规划内容 ---\n", "### 📋 S1", "",
        "  s1line", "", "# B", "contentB", ""] : List String) ∧
    (∀ (content : String) (ms : List HeadingNode) (matchList : List MatchResult)
        (subs : List SubplanDocument) (evs : List (Nat × MatchResult)),
      mergeEvents content ms matchList subs = some evs →
      (evs.map (fun e => e.2.sectionIndex)).Nodup) ∧
    (∀ (mf outf : String) (subplans : List SubplanDocument)
        (matchList : List MatchResult),
      (mkMergeReport mf outf subplans matchList).matchingDetails = matchList) := by
  refine ⟨by decide, by decide, by decide, ?_, fun _ _ _ _ => rfl⟩
  intro content ms matchList subs evs hev
  simp only [mergeEvents] at hev
  cases hr : emitAll content ms matchList subs with
  | none => rw [hr] at hev; exact Option.noConfusion hev
  | some r =>
    rw [hr] at hev
    simp only [Option.map_some', Option.some.injEq] at hev
    obtain ⟨mbl, _, hloop⟩ := emitAll_eq_some content ms matchList subs r hr
    rw [← hev]
    exact (emitLoop_claimed ms subs mbl (splitLines content) 0 [] r hloop).2

/-- Witness for C3's general clauses at concrete inputs. -/
theorem c3_single_insertion_per_section_witness :
    (([(1, matchS1)] : List (Nat × MatchResult)).map (fun e => e.2.sectionIndex)).Nodup ∧
    (mkMergeReport "m" "o" [subplanS1] [matchS1, matchS2]).matchingDetails =
      [matchS1, matchS2] :=
  ⟨c3_single_insertion_per_section.2.2.2.1 masterScenario
      (analyzeDocumentStructure tkNone masterScenario) [matchS1, matchS2]
      [subplanS1, subplanS2] [(1, matchS1)] (by decide),
    c3_single_insertion_per_section.2.2.2.2 "m" "o" [subplanS1] [matchS1, matchS2]⟩

/-- Claim C10: when the master text does not end with a newline and its final
line is a heading targeted by a match (that section's stored 1-based line number
equals the number of lines), the emission loop's 0-based index never reaches that
line number, so no insertion event for that section index ever occurs — yet the
match still appears in the report's match list. -/
theorem c10_last_line_heading_no_insertion (tk : String → List String)
    (content mf outf : String) (matchList : List MatchResult)
    (subs : List SubplanDocument) (m : MatchResult) (sec : HeadingNode)
    (evs : List (Nat × MatchResult))
    (hnl : endsWithNewline content = false)
    (hm : m ∈ matchList)
    (hsec : (analyzeDocumentStructure tk content).get? m.sectionIndex = some sec)
    (hlast : sec.lineNumber = (splitLines content).length)
    (hev : mergeEvents content (analyzeDocumentStructure tk content) matchList subs =
      some evs) :
    (∀ e ∈ evs, e.2.sectionIndex ≠ m.sectionIndex) ∧
    m ∈ (mkMergeReport mf outf subs matchList).matchingDetails := by
  refine ⟨?_, hm⟩
  intro e he hidx
  simp only [mergeEvents] at hev
  cases hr : emitAll content (analyzeDocumentStructure tk content) matchList subs with
  | none => rw [hr] at hev; exact Option.noConfusion hev
  | some r =>
    rw [hr] at hev
    simp only [Option.map_some', Option.some.injEq] at hev
    obtain ⟨mbl, _, hloop⟩ := emitAll_eq_some _ _ _ _ r hr
    obtain ⟨_, hlt, _, sec', hget', hline⟩ :=
      emitLoop_events _ subs mbl (splitLines content) 0 [] r hloop e
        (by rw [hev]; exact he)
    rw [hidx, hsec] at hget'
    obtain rfl : sec = sec' := by simpa using hget'
    omega

/-- Witness for C10 at the concrete one-line master `"# A"`. -/
theorem c10_last_line_heading_no_insertion_witness :
    (∀ e ∈ ([] : List (Nat × MatchResult)), e.2.sectionIndex ≠ matchLast.sectionIndex) ∧
    matchLast ∈ (mkMergeReport "m" "o" [subplanY] [matchLast]).matchingDetails :=
  c10_last_line_heading_no_insertion tkNone masterLastHeading "m" "o" [matchLast]
    [subplanY] matchLast
    { level := 1, title := "A", lineNumber := 1, content := "", keywords := [] }
    [] (by decide) (by decide) (by decide) (by decide) (by decide)

end

/-- Indices in `enumFrom` are strictly increasing. -/
theorem pairwise_fst_lt_enumFrom {α : Type _} : ∀ (n : Nat) (l : List α),
    List.Pairwise (fun a b : Nat × α => a.1 < b.1) (List.enumFrom n l)
  | _, [] => List.Pairwise.nil
  | n, x :: xs => by
    rw [List.enumFrom]
    refine List.Pairwise.cons ?_ (pairwise_fst_lt_enumFrom (n + 1) xs)
    rintro ⟨i, y⟩ hb
    have h := (List.mk_mem_enumFrom_iff_le_and_getElem?_sub.mp hb).1
    show n < i
    omega

/-- Full characterization of the `_find_best_section_match` loop: the final
maximum dominates every eligible similarity seen, and either nothing beat the
incoming accumulator, or the first eligible entry attaining the (strictly
improved) maximum is recorded, every eligible entry before it being strictly
below. -/
theorem findBestLoop_spec (ratio : String → String → ℚ)
    (enum : List String → List String → List String) (sp : SubplanDocument) :
    ∀ (l : List (Nat × HeadingNode)) (best : Option BestMatch) (mx : ℚ),
    List.Pairwise (fun a b : Nat × HeadingNode => a.1 < b.1) l →
    mx ≤ (findBestLoop ratio enum sp l (best, mx)).2 ∧
    (∀ q ∈ l, q.2.level ≤ 3 →
      calculateSimilarity ratio sp q.2 ≤ (findBestLoop ratio enum sp l (best, mx)).2) ∧
    ((findBestLoop ratio enum sp l (best, mx)) = (best, mx) ∧
        (∀ q ∈ l, q.2.level ≤ 3 → calculateSimilarity ratio sp q.2 ≤ mx) ∨
      (∃ p ∈ l, p.2.level ≤ 3 ∧
        calculateSimilarity ratio sp p.2 = (findBestLoop ratio enum sp l (best, mx)).2 ∧
        mx < (findBestLoop ratio enum sp l (best, mx)).2 ∧
        (findBestLoop ratio enum sp l (best, mx)).1 =
          some { sectionIndex := p.1, sectionTitle := p.2.title,
                 similarity := calculateSimilarity ratio sp p.2,
                 reason := generateMatchReason enum sp p.2
                   (calculateSimilarity ratio sp p.2) } ∧
        (∀ q ∈ l, q.2.level ≤ 3 → q.1 < p.1 →
          calculateSimilarity ratio sp q.2 < (findBestLoop ratio enum sp l (best, mx)).2)))
  | [], best, mx, _ => ⟨le_refl _, by simp, Or.inl ⟨rfl, by simp⟩⟩
  | (i, sec) :: rest, best, mx, hpw => by
    obtain ⟨hhead, hpw'⟩ := List.pairwise_cons.mp hpw
    by_cases hl : 3 < sec.level
    · simp only [findBestLoop, if_pos hl]
      obtain ⟨h1, h2, h3⟩ := findBestLoop_spec ratio enum sp rest best mx hpw'
      refine ⟨h1, ?_, ?_⟩
      · intro q hq hql
        rcases List.mem_cons.mp hq with rfl | hq'
        · have hql2 : sec.level ≤ 3 := hql
          exact absurd hql2 (by omega)
        · exact h2 q hq' hql
      · rcases h3 with ⟨heq, hall⟩ | ⟨p, hp, hpl, hcalc, hlt, hbest, hfirst⟩
        · refine Or.inl ⟨heq, ?_⟩
          intro q hq hql
          rcases List.mem_cons.mp hq with rfl | hq'
          · have hql2 : sec.level ≤ 3 := hql
            exact absurd hql2 (by omega)
          · exact hall q hq' hql
        · refine Or.inr ⟨p, List.mem_cons_of_mem _ hp, hpl, hcalc, hlt, hbest, ?_⟩
          intro q hq hql hqi
          rcases List.mem_cons.mp hq with rfl | hq'
          · have hql2 : sec.level ≤ 3 := hql
            exact absurd hql2 (by omega)
          · exact hfirst q hq' hql hqi
    · have hl3 : sec.level ≤ 3 := by omega
      by_cases hs : mx < calculateSimilarity ratio sp sec
      · simp only [findBestLoop, if_neg hl, if_pos hs]
        obtain ⟨h1, h2, h3⟩ := findBestLoop_spec ratio enum sp rest
          (some { sectionIndex := i, sectionTitle := sec.title,
                  similarity := calculateSimilarity ratio sp sec,
                  reason := generateMatchReason enum sp sec
                    (calculateSimilarity ratio sp sec) })
          (calculateSimilarity ratio sp sec) hpw'
        refine ⟨le_of_lt (lt_of_lt_of_le hs h1), ?_, ?_⟩
        · intro q hq hql
          rcases List.mem_cons.mp hq with rfl | hq'
          · exact h1
          · exact h2 q hq' hql
        · rcases h3 with ⟨heq, hall⟩ | ⟨p, hp, hpl, hcalc, hlt, hbest, hfirst⟩
          · refine Or.inr ⟨(i, sec), List.mem_cons_self _ _, hl3, ?_, ?_, ?_, ?_⟩
            · rw [heq]
            · rw [heq]; exact hs
            · rw [heq]
            · intro q hq hql hqi
              rcases List.mem_cons.mp hq with rfl | hq'
              · have hqi2 : i < i := hqi
                exact absurd hqi2 (by omega)
              · have h5 : i < q.1 := hhead q hq'
                have hqi2 : q.1 < i := hqi
                exact absurd hqi2 (by omega)
          · refine Or.inr ⟨p, List.mem_cons_of_mem _ hp, hpl, hcalc,
              lt_trans hs hlt, hbest, ?_⟩
            intro q hq hql hqi
            rcases List.mem_cons.mp hq with rfl | hq'
            · exact hlt
            · exact hfirst q hq' hql hqi
      · simp only [findBestLoop, if_neg hl, if_neg hs]
        obtain ⟨h1, h2, h3⟩ := findBestLoop_spec ratio enum sp rest best mx hpw'
        have hle : calculateSimilarity ratio sp sec ≤ mx := le_of_not_lt hs
        refine ⟨h1, ?_, ?_⟩
        · intro q hq hql
          rcases List.mem_cons.mp hq with rfl | hq'
          · exact le_trans hle h1
          · exact h2 q hq' hql
        · rcases h3 with ⟨heq, hall⟩ | ⟨p, hp, hpl, hcalc, hlt, hbest, hfirst⟩
          · refine Or.inl ⟨heq, ?_⟩
            intro q hq hql
            rcases List.mem_cons.mp hq with rfl | hq'
            · exact hle
            · exact hall q hq' hql
          · refine Or.inr ⟨p, List.mem_cons_of_mem _ hp, hpl, hcalc, hlt, hbest, ?_⟩
            intro q hq hql hqi
            rcases List.mem_cons.mp hq with rfl | hq'
            · exact lt_of_le_of_lt hle hlt
            · exact hfirst q hq' hql hqi

/-- Characterization of `_find_best_section_match`: a returned best match is the
first maximizer over eligible (level ≤ 3) sections with strictly positive
maximum; `none` means every eligible similarity is ≤ 0. -/
theorem findBestSectionMatch_spec (ratio : String → String → ℚ)
    (enum : List String → List String → List String) (sp : SubplanDocument)
    (ms : List HeadingNode) :
    (∀ b, findBestSectionMatch ratio enum sp ms = some b →
      ∃ p ∈ ms.enum, p.2.level ≤ 3 ∧ b.sectionIndex = p.1 ∧
        b.sectionTitle = p.2.title ∧
        b.similarity = calculateSimilarity ratio sp p.2 ∧ 0 < b.similarity ∧
        (∀ q ∈ ms.enum, q.2.level ≤ 3 →
          calculateSimilarity ratio sp q.2 ≤ b.similarity) ∧
        (∀ q ∈ ms.enum, q.2.level ≤ 3 → q.1 < p.1 →
          calculateSimilarity ratio sp q.2 < b.similarity)) ∧
    (findBestSectionMatch ratio enum sp ms = none →
      ∀ q ∈ ms.enum, q.2.level ≤ 3 → calculateSimilarity ratio sp q.2 ≤ 0) := by
  have hpw : List.Pairwise (fun a b : Nat × HeadingNode => a.1 < b.1) ms.enum :=
    pairwise_fst_lt_enumFrom 0 ms
  obtain ⟨h1, h2, h3⟩ := findBestLoop_spec ratio enum sp ms.enum none 0 hpw
  constructor
  · intro b hb
    simp only [findBestSectionMatch] at hb
    by_cases hpos : 0 < (findBestLoop ratio enum sp ms.enum (none, 0)).2
    · rw [if_pos hpos] at hb
      rcases h3 with ⟨heq, _⟩ | ⟨p, hp, hpl, hcalc, _, hbest, hfirst⟩
      · rw [heq] at hb; exact Option.noConfusion hb
      · rw [hbest] at hb
        obtain rfl := Option.some.inj hb
        refine ⟨p, hp, hpl, rfl, rfl, rfl, ?_, ?_, ?_⟩
        · show 0 < calculateSimilarity ratio sp p.2
          rw [hcalc]; exact hpos
        · intro q hq hql
          show calculateSimilarity ratio sp q.2 ≤ calculateSimilarity ratio sp p.2
          rw [hcalc]; exact h2 q hq hql
        · intro q hq hql hqi
          show calculateSimilarity ratio sp q.2 < calculateSimilarity ratio sp p.2
          rw [hcalc]; exact hfirst q hq hql hqi
    · rw [if_neg hpos] at hb; exact Option.noConfusion hb
  · intro hb q hq hql
    simp only [findBestSectionMatch] at hb
    by_cases hpos : 0 < (findBestLoop ratio enum sp ms.enum (none, 0)).2
    · rw [if_pos hpos] at hb
      rcases h3 with ⟨heq, _⟩ | ⟨p, hp, hpl, hcalc, _, hbest, hfirst⟩
      · rw [heq] at hpos
        have h0 : (0 : ℚ) < 0 := hpos
        exact absurd h0 (lt_irrefl 0)
      · rw [hbest] at hb; exact Option.noConfusion hb
    · exact le_trans (h2 q hq hql) (le_of_not_lt hpos)

/-- Claim C2: the matcher considers exactly the sections of level ≤ 3, in
structure order; the running maximum uses strict `>`, so among exact ties the
first section in structure order is retained (every earlier eligible section is
strictly below the retained similarity); a `MatchResult` is produced if and only
if some eligible section's similarity reaches the minimum threshold, which is
0.1; otherwise the subplan is unmatched. -/
theorem c2_matcher_first_max_and_threshold (ratio : String → String → ℚ)
    (enum : List String → List String → List String) (sp : SubplanDocument)
    (ms : List HeadingNode) :
    defaultMatchingRules.minSimilarity = 1/10 ∧
    (matchSubplansToSections ratio enum [sp] ms ≠ [] ↔
      ∃ q ∈ ms.enum, q.2.level ≤ 3 ∧
        defaultMatchingRules.minSimilarity ≤ calculateSimilarity ratio sp q.2) ∧
    (∀ mr ∈ matchSubplansToSections ratio enum [sp] ms,
      mr.subplan = sp.name ∧ defaultMatchingRules.minSimilarity ≤ mr.similarity ∧
      ∃ p ∈ ms.enum, p.2.level ≤ 3 ∧ mr.sectionIndex = p.1 ∧
        mr.sectionTitle = p.2.title ∧
        mr.similarity = calculateSimilarity ratio sp p.2 ∧
        (∀ q ∈ ms.enum, q.2.level ≤ 3 →
          calculateSimilarity ratio sp q.2 ≤ mr.similarity) ∧
        (∀ q ∈ ms.enum, q.2.level ≤ 3 → q.1 < p.1 →
          calculateSimilarity ratio sp q.2 < mr.similarity)) := by
  obtain ⟨hsome, hnone⟩ := findBestSectionMatch_spec ratio enum sp ms
  have hmin : (0 : ℚ) < defaultMatchingRules.minSimilarity := by norm_num [defaultMatchingRules]
  refine ⟨rfl, ?_, ?_⟩
  · cases hb : findBestSectionMatch ratio enum sp ms with
    | none =>
      have hempty : matchSubplansToSections ratio enum [sp] ms = [] := by
        simp [matchSubplansToSections, hb]
      rw [hempty]
      refine iff_of_false (fun hcon => hcon rfl) ?_
      rintro ⟨q, hq, hql, hge⟩
      have hle := hnone hb q hq hql
      have hms : defaultMatchingRules.minSimilarity ≤ 0 := le_trans hge hle
      exact absurd (lt_of_lt_of_le hmin hms) (lt_irrefl 0)
    | some b =>
      obtain ⟨p, hp, hpl, _, _, hbsim, _, hmax, _⟩ := hsome b hb
      by_cases ht : defaultMatchingRules.minSimilarity ≤ b.similarity
      · have hne : matchSubplansToSections ratio enum [sp] ms ≠ [] := by
          simp [matchSubplansToSections, hb, if_pos ht]
        exact iff_of_true hne ⟨p, hp, hpl, by rw [← hbsim]; exact ht⟩
      · have hempty : matchSubplansToSections ratio enum [sp] ms = [] := by
          simp [matchSubplansToSections, hb, if_neg ht]
        rw [hempty]
        refine iff_of_false (fun hcon => hcon rfl) ?_
        rintro ⟨q, hq, hql, hge⟩
        exact ht (le_trans hge (hbsim ▸ hmax q hq hql))
  · intro mr hmr
    simp only [matchSubplansToSections, List.filterMap_cons, List.filterMap_nil] at hmr
    cases hb : findBestSectionMatch ratio enum sp ms with
    | none => simp only [hb] at hmr; simp at hmr
    | some b =>
      simp only [hb] at hmr
      by_cases ht : defaultMatchingRules.minSimilarity ≤ b.similarity
      · simp only [if_pos ht] at hmr
        simp only [List.mem_cons, List.not_mem_nil, or_false] at hmr
        obtain ⟨p, hp, hpl, hidx, htitle, hbsim, _, hmax, hfirst⟩ := hsome b hb
        subst hmr
        exact ⟨rfl, ht, p, hp, hpl, hidx, htitle, hbsim, hmax, hfirst⟩
      · simp only [if_neg ht] at hmr; simp at hmr

section
attribute [local semireducible] Rat.add Rat.mul Rat.inv Rat.sub Rat.ofScientific

/-- Witness for C2 at a concrete subplan and one-section master. -/
theorem c2_matcher_first_max_and_threshold_witness :
    matchSubplansToSections ratioZero setInterOrderA [subplanShared] [sectionShared] ≠ [] ∧
    ∃ q ∈ ([sectionShared] : List HeadingNode).enum, q.2.level ≤ 3 ∧
      defaultMatchingRules.minSimilarity ≤
        calculateSimilarity ratioZero subplanShared q.2 :=
  ⟨(c2_matcher_first_max_and_threshold ratioZero setInterOrderA subplanShared
        [sectionShared]).2.1.mpr ⟨(0, sectionShared), by decide, by decide, by decide⟩,
   (c2_matcher_first_max_and_threshold ratioZero setInterOrderA subplanShared
        [sectionShared]).2.1.mp (by decide)⟩

end

/-- Every parsed section comes from a heading line of the document, via
`secOfHeading`. -/
theorem mem_analyze (tk : String → List String) (content : String) (s : HeadingNode)
    (hs : s ∈ analyzeDocumentStructure tk content) :
    ∃ i line m, (splitLines content).get? i = some line ∧
      headingMatch line = some m ∧ s = secOfHeading tk content i m := by
  simp only [analyzeDocumentStructure] at hs
  obtain ⟨a, ha, hfa⟩ := List.mem_filterMap.mp hs
  cases hm : headingMatch a.2 with
  | none => rw [hm] at hfa; exact Option.noConfusion hfa
  | some m =>
    rw [hm] at hfa
    obtain rfl := Option.some.inj hfa
    have hget := List.mem_enum_iff_getElem?.mp ha
    exact ⟨a.1, a.2, m, by rw [List.get?_eq_getElem?]; exact hget, hm, rfl⟩

/-- Claim C7: no line of a section's span — the subsequent document lines
gathered into its `sectionContent` — is a heading of level ≤ the section's own
level; the `sectionContent` is exactly that span joined with newlines and
stripped. -/
theorem c7_span_no_high_level_heading (tk : String → List String) (content : String)
    (s : HeadingNode) (hs : s ∈ analyzeDocumentStructure tk content)
    (l : String)
    (hl : l ∈ sectionSpanLines (splitLines content) (s.lineNumber - 1) s.level)
    (n : Nat) (hn : headingLevel l = some n) :
    s.level < n ∧
    s.content = pyStrip (joinLines (sectionSpanLines (splitLines content)
      (s.lineNumber - 1) s.level)) := by
  obtain ⟨i, line, m, hget, hmatch, rfl⟩ := mem_analyze tk content s hs
  have hidx : (secOfHeading tk content i m).lineNumber - 1 = i := by
    simp [secOfHeading]
  have hlev : (secOfHeading tk content i m).level = m.1 := rfl
  constructor
  · rw [hidx, hlev] at hl
    have hp := List.mem_takeWhile_imp hl
    simp only [Bool.not_eq_true', isStopHeading, hn] at hp
    have hnle : ¬ n ≤ m.1 := of_decide_eq_false hp
    rw [hlev]
    omega
  · rw [hidx, hlev]
    rfl

/-- Witness for C7: in `"# A\n## B\nx"`, the level-1 section's span contains the
heading line `"## B"`, of strictly greater level. -/
theorem c7_span_no_high_level_heading_witness :
    ({ level := 1, title := "A", lineNumber := 1, content := "## B\nx",
       keywords := [] } : HeadingNode).level < 2 ∧
    ({ level := 1, title := "A", lineNumber := 1, content := "## B\nx",
       keywords := [] } : HeadingNode).content =
      pyStrip (joinLines (sectionSpanLines (splitLines "# A\n## B\nx") 0 1)) :=
  c7_span_no_high_level_heading tkNone "# A\n## B\nx"
    { level := 1, title := "A", lineNumber := 1, content := "## B\nx", keywords := [] }
    (by decide) "## B" (by decide) 2 (by decide)

/-- A line list with empty `headsFrom` contains no heading lines. -/
theorem headsFrom_nil_forall : ∀ (ls : List String) (i : Nat),
    headsFrom i ls = [] → ∀ x ∈ ls, headingLevel x = none
  | [], _, _ => by intro x hx; simp at hx
  | l :: ls, i, h => by
    intro x hx
    simp only [headsFrom] at h
    cases hm : headingLevel l with
    | some n => rw [hm] at h; exact List.noConfusion h
    | none =>
      rw [hm] at h
      rcases List.mem_cons.mp hx with rfl | hx'
      · exact hm
      · exact headsFrom_nil_forall ls (i + 1) h x hx'

/-- Position facts for the first entry of `headsFrom`: it lies at relative index
`j - i`, every earlier line is a non-heading, and the line there has level `n`. -/
theorem headsFrom_cons_facts : ∀ (ls : List String) (i j n : Nat)
    (rest : List (Nat × Nat)), headsFrom i ls = (j, n) :: rest →
    i ≤ j ∧ (∀ k x, k < j - i → ls.get? k = some x → headingLevel x = none) ∧
    (∃ x, ls.get? (j - i) = some x ∧ headingLevel x = some n)
  | [], i, j, n, rest, h => by simp [headsFrom] at h
  | l :: ls, i, j, n, rest, h => by
    simp only [headsFrom] at h
    cases hm : headingLevel l with
    | some n' =>
      rw [hm] at h
      injection h with h1 _
      rw [Prod.mk.injEq] at h1
      obtain ⟨rfl, rfl⟩ := h1
      refine ⟨le_refl _, ?_, l, ?_, hm⟩
      · intro k x hk _
        omega
      · simp
    | none =>
      rw [hm] at h
      obtain ⟨h1, h2, x, hx1, hx2⟩ := headsFrom_cons_facts ls (i + 1) j n rest h
      refine ⟨by omega, ?_, x, ?_, hx2⟩
      · intro k y hk hget
        cases k with
        | zero =>
          obtain rfl : l = y := Option.some.inj hget
          exact hm
        | succ k' => exact h2 k' y (by omega) hget
      · have hji : j - i = (j - (i + 1)) + 1 := by omega
        rw [hji]
        exact hx1

/-- `takeWhile` equals `take m` when the predicate holds strictly before index
`m` and fails at index `m`. -/
theorem takeWhile_eq_take_of (p : String → Bool) : ∀ (ls : List String) (m : Nat),
    (∀ k x, k < m → ls.get? k = some x → p x = true) →
    (∀ x, ls.get? m = some x → p x = false) →
    ls.takeWhile p = ls.take m
  | [], m, _, _ => by simp
  | l :: ls, 0, _, hm => by
    have hfalse := hm l rfl
    simp [List.takeWhile_cons, hfalse]
  | l :: ls, m + 1, hk, hm => by
    have hl := hk 0 l (by omega) rfl
    simp only [List.takeWhile_cons, hl, if_true, List.take_succ_cons]
    exact congrArg (l :: ·)
      (takeWhile_eq_take_of p ls m (fun k x hk' hg => hk (k + 1) x (by omega) hg)
        (fun x hg => hm x hg))

/-- The `(lineNumber - 1, level)` image of the parser's per-line scan is
`headsFrom`. -/
theorem enumFrom_filterMap_heads (tk : String → List String) (content : String) :
    ∀ (ls : List String) (i : Nat),
    ((List.enumFrom i ls).filterMap (fun p =>
        (headingMatch p.2).map (secOfHeading tk content p.1))).map
      (fun s => (s.lineNumber - 1, s.level)) = headsFrom i ls
  | [], _ => rfl
  | l :: ls, i => by
    simp only [List.enumFrom, List.filterMap_cons]
    cases hm : headingMatch l with
    | none =>
      have hlev : headingLevel l = none := by simp [headingLevel, hm]
      simp only [Option.map_none', headsFrom, hlev]
      exact enumFrom_filterMap_heads tk content ls (i + 1)
    | some m =>
      have hlev : headingLevel l = some m.1 := by simp [headingLevel, hm]
      simp only [Option.map_some', headsFrom, hlev, List.map_cons]
      refine congrArg₂ List.cons ?_ (enumFrom_filterMap_heads tk content ls (i + 1))
      simp [secOfHeading]

/-- The `(lineNumber - 1, level)` image of the parsed structure is `headsFrom 0`. -/
theorem analyze_map_heads (tk : String → List String) (content : String) :
    (analyzeDocumentStructure tk content).map (fun s => (s.lineNumber - 1, s.level)) =
      headsFrom 0 (splitLines content) :=
  enumFrom_filterMap_heads tk content (splitLines content) 0

/-- `headsNonIncreasing` of the image equals `levelsNonIncreasing` of the
structure. -/
theorem headsNonIncreasing_map : ∀ (secs : List HeadingNode),
    headsNonIncreasing (secs.map (fun s => (s.lineNumber - 1, s.level))) =
      levelsNonIncreasing secs
  | [] => rfl
  | [_] => rfl
  | a :: b :: rest => by
    simp only [List.map_cons, headsNonIncreasing, levelsNonIncreasing]
    exact congrArg (fun t => (decide (b.level ≤ a.level)) && t)
      (headsNonIncreasing_map (b :: rest))

/-- With non-increasing heading levels, concatenating each heading line with its
span reconstructs exactly the suffix of the document from the first heading on. -/
theorem headsFrom_flatMap_drop (lines : List String) :
    ∀ (ls : List String) (off : Nat), lines.drop off = ls →
    headsNonIncreasing (headsFrom off ls) = true →
    (headsFrom off ls).flatMap (fun h =>
        lines.getD h.1 "" :: sectionSpanLines lines h.1 h.2) =
      (match (headsFrom off ls).head? with
       | some h => lines.drop h.1
       | none => [])
  | [], _, _, _ => by simp [headsFrom]
  | l :: ls', off, hdrop, hni => by
    have hdrop' : lines.drop (off + 1) = ls' := by
      rw [← List.drop_drop 1 off lines, hdrop]
      rfl
    have hgetl : lines.get? off = some l := by
      have h0 : (List.drop off lines).get? 0 = some l := by rw [hdrop]; rfl
      rw [List.get?_drop] at h0
      simpa using h0
    have hgetD : lines.getD off "" = l := by
      rw [List.getD_eq_get?, hgetl]
      rfl
    simp only [headsFrom] at hni ⊢
    cases hm : headingLevel l with
    | none =>
      rw [hm] at hni
      exact headsFrom_flatMap_drop lines ls' (off + 1) hdrop' hni
    | some n =>
      rw [hm] at hni
      cases hrest : headsFrom (off + 1) ls' with
      | nil =>
        have hnohead := headsFrom_nil_forall ls' (off + 1) hrest
        have hspan : sectionSpanLines lines off n = ls' := by
          rw [sectionSpanLines, hdrop']
          apply List.takeWhile_eq_self_iff.mpr
          intro x hx
          simp [isStopHeading, hnohead x hx]
        show (lines.getD off "" :: sectionSpanLines lines off n) ++ [] =
          List.drop off lines
        rw [hspan, hgetD, hdrop, List.append_nil]
      | cons h1 rest' =>
        obtain ⟨j₁, n₁⟩ := h1
        rw [hrest] at hni
        have hni2 : (decide (n₁ ≤ n) && headsNonIncreasing ((j₁, n₁) :: rest')) =
            true := hni
        simp only [Bool.and_eq_true] at hni2
        have hni' : headsNonIncreasing ((j₁, n₁) :: rest') = true := hni2.2
        have hlev : n₁ ≤ n := of_decide_eq_true hni2.1
        obtain ⟨hle, hbefore, x₁, hx₁, hx₁lev⟩ :=
          headsFrom_cons_facts ls' (off + 1) j₁ n₁ rest' hrest
        have hIH := headsFrom_flatMap_drop lines ls' (off + 1) hdrop'
          (by rw [hrest]; exact hni')
        rw [hrest] at hIH
        simp only [List.head?_cons] at hIH
        have hspan : sectionSpanLines lines off n = ls'.take (j₁ - (off + 1)) := by
          rw [sectionSpanLines, hdrop']
          apply takeWhile_eq_take_of
          · intro k x hk hget
            simp [isStopHeading, hbefore k x hk hget]
          · intro x hget
            rw [hx₁] at hget
            obtain rfl := Option.some.inj hget
            simp [isStopHeading, hx₁lev, hlev]
        have hdropj : lines.drop j₁ = ls'.drop (j₁ - (off + 1)) := by
          rw [← hdrop', List.drop_drop]
          congr 1
          omega
        show (lines.getD off "" :: sectionSpanLines lines off n) ++
            ((j₁, n₁) :: rest').flatMap
              (fun h => lines.getD h.1 "" :: sectionSpanLines lines h.1 h.2) =
          List.drop off lines
        rw [hgetD, hspan, hIH, hdropj, hdrop]
        simp only [List.cons_append, List.take_append_drop]

/-- Counterexample to claim C4 as stated.  For `"# A\n## B\nx"` the nested
heading's span lies inside its parent's span, so the concatenation duplicates
lines and is not a subsequence of the document's lines at all (5 lines against
3, `"x"` appearing twice).  For `"# A\n\nx"` the strip also removes the span's
leading blank line, so the reconstruction is not contiguous and the trimming is
not only of trailing whitespace. -/
theorem c4_reconstruction_counterexample :
    claimedReconstruction tkNone "# A\n## B\nx" = ["# A", "## B", "x", "## B", "x"] ∧
    splitLines "# A\n## B\nx" = ["# A", "## B", "x"] ∧
    isSubseq (claimedReconstruction tkNone "# A\n## B\nx")
      (splitLines "# A\n## B\nx") = false ∧
    (claimedReconstruction tkNone "# A\n## B\nx").count "x" = 2 ∧
    (splitLines "# A\n## B\nx").count "x" = 1 ∧
    claimedReconstruction tkNone "# A\n\nx" = ["# A", "x"] ∧
    splitLines "# A\n\nx" = ["# A", "", "x"] :=
  ⟨by decide, by decide, by decide, by decide, by decide, by decide, by decide⟩

/-- Claim C4 (amended): for any document whose parsed heading levels are
non-increasing (so no heading's span contains another heading), concatenating
each heading line with its span — the document lines gathered into its
`sectionContent` — in structure order yields exactly the suffix of the
document's lines from the first heading on: a contiguous, order-preserving,
non-overlapping subsequence; each `sectionContent` is its span joined with
newlines and stripped of leading and trailing whitespace (interior blank lines
preserved verbatim). -/
theorem c4_amended_reconstruction (tk : String → List String) (content : String)
    (h : levelsNonIncreasing (analyzeDocumentStructure tk content) = true) :
    ((analyzeDocumentStructure tk content).flatMap (fun s =>
        (splitLines content).getD (s.lineNumber - 1) "" ::
          sectionSpanLines (splitLines content) (s.lineNumber - 1) s.level) =
      (match (analyzeDocumentStructure tk content).head? with
       | some s => (splitLines content).drop (s.lineNumber - 1)
       | none => [])) ∧
    ∀ s ∈ analyzeDocumentStructure tk content,
      s.content = pyStrip (joinLines (sectionSpanLines (splitLines content)
        (s.lineNumber - 1) s.level)) := by
  constructor
  · have hmap := analyze_map_heads tk content
    have hni : headsNonIncreasing (headsFrom 0 (splitLines content)) = true := by
      rw [← hmap, headsNonIncreasing_map]
      exact h
    have hmain := headsFrom_flatMap_drop (splitLines content) (splitLines content) 0
      (List.drop_zero _) hni
    rw [← hmap, List.flatMap_map, List.head?_map] at hmain
    cases hsecs : analyzeDocumentStructure tk content with
    | nil => simp
    | cons s rest =>
      rw [hsecs] at hmain
      simpa using hmain
  · intro s hs
    obtain ⟨i, line, m, hget, hmatch, rfl⟩ := mem_analyze tk content s hs
    have hidx : (secOfHeading tk content i m).lineNumber - 1 = i := by
      simp [secOfHeading]
    rw [hidx]
    rfl

/-- Witness for the amended C4 at `"## A\nx\n# B\ny"` (levels 2 then 1,
non-increasing). -/
theorem c4_amended_reconstruction_witness :
    ((analyzeDocumentStructure tkNone "## A\nx\n# B\ny").flatMap (fun s =>
        (splitLines "## A\nx\n# B\ny").getD (s.lineNumber - 1) "" ::
          sectionSpanLines (splitLines "## A\nx\n# B\ny") (s.lineNumber - 1) s.level) =
      (match (analyzeDocumentStructure tkNone "## A\nx\n# B\ny").head? with
       | some s => (splitLines "## A\nx\n# B\ny").drop (s.lineNumber - 1)
       | none => [])) ∧
    ∀ s ∈ analyzeDocumentStructure tkNone "## A\nx\n# B\ny",
      s.content = pyStrip (joinLines (sectionSpanLines
        (splitLines "## A\nx\n# B\ny") (s.lineNumber - 1) s.level)) :=
  c4_amended_reconstruction tkNone "## A\nx\n# B\ny" (by decide)
